import Mathlib

/-!
# Synchronous chat room server: registry, broadcast router and client sessions

A shallow embedding of `src/server.go` and the properties of its specification.

Modelling conventions.

* A Go `string` is a Lean `String` (the wire protocol is UTF-8 text); `fmt.Sprintf` with `%s`
  verbs is string concatenation.
* A `net.Conn` is an opaque comparable handle (`Conn`); a `net.Conn` field that may hold the
  `nil` interface value is an `Option Conn`.
* The global `clients` map is an association list without duplicate keys (`AList`). Go leaves
  the iteration order of a map unspecified; the results below are stated per connection and
  quantify over every such list, hence over every order.
* The global `broadcast` channel is the list of the events sent and not yet received, oldest
  first. The channel of `server.go` is unbuffered, so a sender waits there until the router
  receives; the model lets the sender go on at once, which only adds reachable states.
* A read or a write on a connection is recorded when it is attempted; `handleMessages` discards
  the result of its writes, and the result of a read is a parameter of the step that performs
  it.
* The server is a set of tasks (one router, one handler per connection). Every operation a task
  performs on the shared state, the lock, the channel or a connection is appended to
  `World.trace`, so that what a connection receives and when the lock is held can be read off
  the trace. A task runs from one blocking read (or channel receive) to the next as one step.
-/

namespace Chatroom

/-! ## Data model -/

/-- A connection handle: the model of a non-nil `net.Conn`. -/
abbrev Conn := Nat

/-- The `Message` struct of `server.go`: `senderConn` is the connection that must not receive
the message (`none` is the `nil` interface value), `content` the text to deliver. -/
structure Message where
  senderConn : Option Conn
  content : String
deriving DecidableEq, Repr

/-- The type of the global `clients`: `map[net.Conn]string`. -/
abbrev ClientMap := AList (fun _ : Conn => String)

/-- The operations a task performs, in the vocabulary of `server.go`. -/
inductive Action where
  /-- `mu.Lock()` -/
  | muLock
  /-- `mu.Unlock()` -/
  | muUnlock
  /-- `clients[conn] = id` -/
  | mapStore (conn : Conn) (id : String)
  /-- `delete(clients, conn)` -/
  | mapDelete (conn : Conn)
  /-- `for conn := range clients` -/
  | mapRange
  /-- `broadcast <- msg` -/
  | chanSend (msg : Message)
  /-- `msg := <-broadcast` (one iteration of `for msg := range broadcast`) -/
  | chanRecv (msg : Message)
  /-- `reader.ReadString` on the reader of `conn` -/
  | connRead (conn : Conn)
  /-- A write of `data` to `conn` -/
  | connWrite (conn : Conn) (data : String)
  /-- `conn.Close()` -/
  | connClose (conn : Conn)
  /-- `log.Printf` of `line` on the server log -/
  | logPrintf (line : String)
deriving DecidableEq, Repr

/-- The shared state of the server, with the trace of the operations performed so far. -/
structure World where
  clients : ClientMap
  broadcast : List Message
  trace : List Action

/-! ## Library functions used by the server -/

/-- Go `unicode.IsSpace`: in Latin-1 the characters tab, line feed, vertical tab, form feed,
carriage return, space, U+0085 and U+00A0; above Latin-1 the `White_Space` property. -/
def IsSpace (r : Char) : Bool :=
  let n := r.toNat
  if n ≤ 0xFF then
    n = 0x09 || n = 0x0A || n = 0x0B || n = 0x0C || n = 0x0D || n = 0x20 || n = 0x85 || n = 0xA0
  else
    n = 0x1680 || (0x2000 ≤ n && n ≤ 0x200A) || n = 0x2028 || n = 0x2029 || n = 0x202F
      || n = 0x205F || n = 0x3000

/-- Go `strings.TrimSpace`: the string with all leading and trailing white space removed. -/
def TrimSpace (s : String) : String :=
  ⟨List.rdropWhile IsSpace (List.dropWhile IsSpace s.data)⟩

/-- The two results of `reader.ReadString`: the data read and a nil error, or the data read
before the failure and a non-nil error (end of stream or an I/O error). -/
inductive ReadResult where
  | ok (line : String)
  | fail (data : String)
deriving DecidableEq, Repr

/-- Go `bufio.Reader.ReadString(delim)` on a connection on which the characters `input` arrive
before it fails or is closed: the data up to and including the first `delim`, or, when `input`
has no `delim`, all of it together with an error. The second component is the unread rest. -/
def ReadString (delim : Char) (input : List Char) : ReadResult × List Char :=
  match input.span (fun c => c != delim) with
  | (data, []) => (ReadResult.fail ⟨data⟩, [])
  | (data, d :: rest) => (ReadResult.ok ⟨data ++ [d]⟩, rest)

/-! ## Primitive operations on the world -/

/-- Append one operation to the trace. -/
def World.emit (w : World) (a : Action) : World :=
  { w with trace := w.trace ++ [a] }

/-- `mu.Lock()` -/
def muLock (w : World) : World := w.emit Action.muLock

/-- `mu.Unlock()` -/
def muUnlock (w : World) : World := w.emit Action.muUnlock

/-- `clients[conn] = id` -/
def clientsStore (conn : Conn) (id : String) (w : World) : World :=
  { w with clients := w.clients.insert conn id }.emit (Action.mapStore conn id)

/-- `delete(clients, conn)` -/
def clientsDelete (conn : Conn) (w : World) : World :=
  { w with clients := w.clients.erase conn }.emit (Action.mapDelete conn)

/-- `broadcast <- msg` -/
def broadcastSend (msg : Message) (w : World) : World :=
  { w with broadcast := w.broadcast ++ [msg] }.emit (Action.chanSend msg)

/-- `fmt.Fprintln(conn, a)`: one write of `a` followed by a newline; the result of the write is
discarded by the caller. -/
def Fprintln (conn : Conn) (a : String) (w : World) : World :=
  w.emit (Action.connWrite conn (a ++ "\n"))

/-! ## The broadcast router: `handleMessages` -/

/-- The inner loop of `handleMessages`, over the entries of `clients`:
`for conn := range clients { if conn != msg.senderConn { fmt.Fprintln(conn, msg.content) } }`. -/
def rangeClients (msg : Message) : List (Sigma fun _ : Conn => String) → World → World
  | [], w => w
  | e :: es, w =>
    if some e.1 ≠ msg.senderConn then rangeClients msg es (Fprintln e.1 msg.content w)
    else rangeClients msg es w

/-- The body of the outer loop of `handleMessages` for the received `msg`. -/
def fanOut (msg : Message) (w : World) : World :=
  let w := muLock w
  let w := w.emit Action.mapRange
  let w := rangeClients msg w.clients.entries w
  muUnlock w

/-- One iteration of `for msg := range broadcast`: receive the oldest event and fan it out; with
nothing to receive the router stays blocked. -/
def handleMessagesIter (w : World) : World :=
  match w.broadcast with
  | [] => w
  | msg :: rest => fanOut msg ({ w with broadcast := rest }.emit (Action.chanRecv msg))

/-- The router run `n` iterations. -/
def handleMessagesN : Nat → World → World
  | 0, w => w
  | n + 1, w => handleMessagesN n (handleMessagesIter w)

/-- The function `handleMessages` run until it has consumed the events in the channel. -/
def handleMessages (w : World) : World :=
  handleMessagesN w.broadcast.length w

/-! ## The client session: `handleClient` -/

/-- The states of a session. `active id` holds the local variable `id` of `handleClient`. -/
inductive Phase where
  | handshake
  | active (id : String)
  | terminated
deriving DecidableEq, Repr

/-- From the start of `handleClient` to the first read of the message loop: the read of the
identifier line with result `r`, the registration and the join event. -/
def handshake (conn : Conn) (r : ReadResult) (w : World) : Phase × World :=
  let w := w.emit (Action.connRead conn)
  match r with
  | ReadResult.fail _ => (Phase.terminated, w.emit (Action.connClose conn))
  | ReadResult.ok idStr =>
    let id := TrimSpace idStr
    let w := muLock w
    let w := clientsStore conn id w
    let w := muUnlock w
    let joinMsg := "> User " ++ id ++ " joined"
    let w := broadcastSend { senderConn := some conn, content := joinMsg } w
    (Phase.active id, w)

/-- The disconnect handling at the end of `handleClient`, with the deferred `conn.Close()`. -/
def disconnect (conn : Conn) (id : String) (w : World) : World :=
  let w := muLock w
  let w := clientsDelete conn w
  let w := muUnlock w
  let leaveMsg := "User " ++ id ++ " left the chat"
  let w := broadcastSend { senderConn := none, content := leaveMsg } w
  let w := w.emit (Action.logPrintf ("User " ++ id ++ " disconnected."))
  w.emit (Action.connClose conn)

/-- One read of the message loop of `handleClient` with result `r`, up to the next read: either
an iteration of the loop, or the `break` followed by the disconnect handling. -/
def readLoop (conn : Conn) (id : String) (r : ReadResult) (w : World) : Phase × World :=
  let w := w.emit (Action.connRead conn)
  match r with
  | ReadResult.fail _ => (Phase.terminated, disconnect conn id w)
  | ReadResult.ok msg =>
    let msg := TrimSpace msg
    if msg ≠ "" then
      let formattedMsg := "[" ++ id ++ "]: " ++ msg
      (Phase.active id, broadcastSend { senderConn := some conn, content := formattedMsg } w)
    else
      (Phase.active id, w)

/-- One step of a session: its next read returns `r`. A terminated session reads no more. -/
def handleClientStep (conn : Conn) : Phase → ReadResult → World → Phase × World
  | Phase.handshake, r, w => handshake conn r w
  | Phase.active id, r, w => readLoop conn id r w
  | Phase.terminated, _, w => (Phase.terminated, w)

/-- A session run from phase `p` on the successive results `rs` of its reads. -/
def runSession (conn : Conn) : Phase → List ReadResult → World → Phase × World
  | p, [], w => (p, w)
  | p, r :: rs, w =>
    let pw := handleClientStep conn p r w
    runSession conn pw.1 rs pw.2

/-- The function `handleClient(conn)` on the successive results `rs` of its reads. -/
def handleClient (conn : Conn) (rs : List ReadResult) (w : World) : Phase × World :=
  runSession conn Phase.handshake rs w

/-! ## The server as a transition system -/

/-- The server: the shared world and the phase of the session of every connection. -/
structure Server where
  world : World
  phase : Conn → Phase

/-- The server at start: nothing registered, nothing queued, every session before its first
read. -/
def Server.start : Server :=
  { world := { clients := ∅, broadcast := [], trace := [] }, phase := fun _ => Phase.handshake }

/-- The session of `conn` takes one step: its read returns `r`. -/
def Server.sessionStep (s : Server) (conn : Conn) (r : ReadResult) : Server :=
  let pw := handleClientStep conn (s.phase conn) r s.world
  { world := pw.2, phase := Function.update s.phase conn pw.1 }

/-- The router takes one step. -/
def Server.routerStep (s : Server) : Server :=
  { s with world := handleMessagesIter s.world }

/-- One step of the server. -/
inductive Server.Step : Server → Server → Prop where
  | session (s : Server) (conn : Conn) (r : ReadResult) : Server.Step s (s.sessionStep conn r)
  | router (s : Server) : Server.Step s s.routerStep

/-- The states reachable from `t`. -/
inductive Server.ReachableFrom (t : Server) : Server → Prop where
  | refl : Server.ReachableFrom t t
  | step {s u : Server} : Server.ReachableFrom t s → Server.Step s u → Server.ReachableFrom t u

/-- The reachable states of the server. -/
def Server.Reachable (s : Server) : Prop := Server.ReachableFrom Server.start s

/-! ## Observations on a trace -/

/-- The data written to `conn`, write by write, in order. -/
def received (conn : Conn) (trace : List Action) : List String :=
  trace.filterMap fun a =>
    match a with
    | Action.connWrite c data => if c = conn then some data else none
    | _ => none

/-! ## Auxiliary definitions for the statements -/

/-- The writes of the inner loop of `handleMessages` over the entries `es`. -/
def rangeWrites (msg : Message) (es : List (Sigma fun _ : Conn => String)) : List Action :=
  (es.filter fun e => decide (some e.1 ≠ msg.senderConn)).map
    fun e => Action.connWrite e.1 (msg.content ++ "\n")

/-- A registry for the examples: connection 1 is bob, connection 2 is dave. -/
def demoClients : ClientMap := ((∅ : ClientMap).insert 1 "bob").insert 2 "dave"

/-- The events of the lines `lines` read in order by the message loop of the session `id` on
`conn`: one event for each line that is not empty once trimmed. -/
def chatEvents (conn : Conn) (id : String) : List String → List Message
  | [] => []
  | line :: lines =>
    (if TrimSpace line = "" then []
      else [{ senderConn := some conn, content := "[" ++ id ++ "]: " ++ TrimSpace line }])
      ++ chatEvents conn id lines

/-- The identifier as the specification words it: the line with its trailing white space and
newline removed and nothing else changed. -/
def trimTrailing (s : String) : String :=
  ⟨List.rdropWhile IsSpace s.data⟩

/-- The condition on the start of a session: in the message loop, the identifier holds no
newline. -/
def Phase.oneLine : Phase → Prop
  | Phase.active id => '\n' ∉ id.data
  | _ => True

/-- The lines due to the connection `c` for the events `q`, in the words of the specification:
the texts, each followed by a newline, of those events of `q` whose excluded connection is not
`c`, in the order of `q`. -/
def linesFor (c : Conn) (q : List Message) : List String :=
  (q.filter fun m => decide (m.senderConn ≠ some c)).map fun m => m.content ++ "\n"

/-- The identifier under which a session in phase `p` is expected in the registry: the `id` of
an active session, none before the handshake and after the disconnect. -/
def Phase.registered : Phase → Option String
  | Phase.active id => some id
  | _ => none

/-- A server state for the examples: from the start, connection 3 sends `carol`, connection 4
fails its first read, then connection 3 sends `hello`. -/
def demoServer : Server :=
  ((Server.start.sessionStep 3 (ReadResult.ok "carol\n")).sessionStep 4
    (ReadResult.fail "")).sessionStep 3 (ReadResult.ok "hello\n")

/-- A server state for the examples: from the start, connection 1 sends `bob`, connection 2
sends `dave`, then the router delivers the join event of bob. -/
def demoRouted : Server :=
  ((Server.start.sessionStep 1 (ReadResult.ok "bob\n")).sessionStep 2
    (ReadResult.ok "dave\n")).routerStep

/-! ## The lock on a trace -/

/-- Whether the lock `mu` is held after the operation `a`, when `held` tells whether it was held
before. -/
def heldAfter (held : Bool) : Action → Bool
  | Action.muLock => true
  | Action.muUnlock => false
  | _ => held

/-- Whether the lock is held at the end of a trace that starts with the lock as in `held`. -/
def heldAtEnd : Bool → List Action → Bool
  | held, [] => held
  | held, a :: rest => heldAtEnd (heldAfter held a) rest

/-- Each operation of a trace, paired with whether the lock is held when it is performed. -/
def annotate : Bool → List Action → List (Bool × Action)
  | _, [] => []
  | held, a :: rest => (held, a) :: annotate (heldAfter held a) rest

/-- Network I/O: a read from or a write to a connection. -/
def Action.touchesConn : Action → Bool
  | Action.connRead _ => true
  | Action.connWrite _ _ => true
  | _ => false

/-- An access to the registry: a store, a delete or the iteration. -/
def Action.isRegistryAccess : Action → Bool
  | Action.mapStore _ _ => true
  | Action.mapDelete _ => true
  | Action.mapRange => true
  | _ => false

/-- A write to a connection. -/
def Action.isConnWrite : Action → Bool
  | Action.connWrite _ _ => true
  | _ => false

/-- The operations of a task other than on the lock, on the registry and the writes: a read
from a connection, a send or a receive on the channel, a close, a line on the server log. -/
def Action.isOther : Action → Bool
  | Action.connRead _ => true
  | Action.chanSend _ => true
  | Action.chanRecv _ => true
  | Action.connClose _ => true
  | Action.logPrintf _ => true
  | _ => false

/-- The lock discipline as the specification states it: no read from and no write to a
connection is performed while the lock is held. -/
def NoConnOpUnderLock (trace : List Action) : Prop :=
  ∀ a, (true, a) ∈ annotate false trace → a.touchesConn = false

/-- The lock discipline of `server.go`, on a trace that starts with the lock free: the lock is
acquired only when free and released only when held, and is free at the end; every access to
the registry and every write to a connection is performed with the lock held; every other
operation (read, channel send or receive, close, log) is performed with the lock free. -/
def LockDiscipline (trace : List Action) : Prop :=
  heldAtEnd false trace = false ∧
  ∀ held a, (held, a) ∈ annotate false trace →
    (a = Action.muLock → held = false) ∧
    (a = Action.muUnlock → held = true) ∧
    (a.isRegistryAccess = true → held = true) ∧
    (a.isConnWrite = true → held = true) ∧
    (a.isOther = true → held = false)

/-- Whether the operation `a` respects the lock discipline when the lock is as in `held`. -/
def Action.allowed (held : Bool) : Action → Bool
  | Action.muLock => !held
  | Action.muUnlock => held
  | Action.mapStore _ _ => held
  | Action.mapDelete _ => held
  | Action.mapRange => held
  | Action.connWrite _ _ => held
  | _ => !held

/-- Whether every operation of a trace respects the lock discipline. -/
def allAllowed : Bool → List Action → Bool
  | _, [] => true
  | held, a :: rest => a.allowed held && allAllowed (heldAfter held a) rest

/-! ## Basic facts -/

theorem received_append (c : Conn) (t u : List Action) :
    received c (t ++ u) = received c t ++ received c u := by
  simp [received, List.filterMap_append]

theorem rangeClients_eq (msg : Message) (es : List (Sigma fun _ : Conn => String)) (w : World) :
    rangeClients msg es w = { w with trace := w.trace ++ rangeWrites msg es } := by
  induction es generalizing w with
  | nil => simp [rangeClients, rangeWrites]
  | cons e es ih =>
    by_cases h : some e.1 = msg.senderConn
    · simp [rangeClients, rangeWrites, h, ih]
    · simp [rangeClients, rangeWrites, h, ih, Fprintln, World.emit]

theorem fanOut_eq (msg : Message) (w : World) :
    fanOut msg w = { w with trace := w.trace ++ ([Action.muLock, Action.mapRange]
      ++ rangeWrites msg w.clients.entries ++ [Action.muUnlock]) } := by
  simp [fanOut, rangeClients_eq, muLock, muUnlock, World.emit]

theorem received_rangeWrites (msg : Message) (c : Conn)
    (es : List (Sigma fun _ : Conn => String)) :
    received c (rangeWrites msg es) =
      if some c ≠ msg.senderConn then
        List.replicate ((es.map Sigma.fst).count c) (msg.content ++ "\n")
      else [] := by
  induction es with
  | nil => simp [rangeWrites, received]
  | cons e es ih =>
    have hcons : rangeWrites msg (e :: es) =
        (if some e.1 ≠ msg.senderConn then [Action.connWrite e.1 (msg.content ++ "\n")] else [])
          ++ rangeWrites msg es := by
      by_cases h : some e.1 = msg.senderConn <;> simp [rangeWrites, h]
    rw [hcons, received_append, ih]
    by_cases hc : some c = msg.senderConn
    · by_cases he : e.1 = c
      · subst he; simp [hc, received]
      · by_cases h : some e.1 = msg.senderConn <;> simp [hc, h, he, received]
    · by_cases he : e.1 = c
      · subst he
        simp [hc, received, List.count_cons, List.replicate_succ]
      · have h2 : ¬ (e.1 == c) = true := by simpa using he
        by_cases h : some e.1 = msg.senderConn <;>
          simp [hc, h, he, received, List.count_cons, h2]

theorem count_keys (R : ClientMap) (c : Conn) :
    (R.entries.map Sigma.fst).count c = if c ∈ R.keys then 1 else 0 := by
  have hnd : (R.entries.map Sigma.fst).Nodup := R.nodupKeys
  by_cases h : c ∈ R.keys
  · rw [if_pos h]; exact List.count_eq_one_of_mem hnd h
  · rw [if_neg h]; exact List.count_eq_zero_of_not_mem h

theorem received_fanOut (msg : Message) (w : World) (c : Conn) :
    received c (fanOut msg w).trace = received c w.trace ++
      if c ∈ w.clients.keys ∧ some c ≠ msg.senderConn then [msg.content ++ "\n"] else [] := by
  rw [fanOut_eq]
  simp only [received_append, received_rangeWrites, count_keys]
  by_cases h1 : c ∈ w.clients.keys <;> by_cases h2 : some c = msg.senderConn <;>
    simp [h1, h2, received]

theorem dropWhile_all_iff (p : Char → Bool) (l : List Char) :
    (∀ x ∈ l.dropWhile p, p x = true) ↔ ∀ x ∈ l, p x = true := by
  induction l with
  | nil => simp
  | cons a l ih =>
    by_cases h : p a = true
    · simp [List.dropWhile_cons, h, ih]
    · simp [List.dropWhile_cons, h]

theorem TrimSpace_eq_empty_iff (s : String) :
    TrimSpace s = "" ↔ ∀ ch ∈ s.data, IsSpace ch = true := by
  have h : TrimSpace s = "" ↔ List.rdropWhile IsSpace (List.dropWhile IsSpace s.data) = [] := by
    constructor
    · intro h; exact congrArg String.data h
    · intro h; exact String.ext h
  rw [h, List.rdropWhile_eq_nil_iff, dropWhile_all_iff]

theorem handshake_ok (conn : Conn) (idStr : String) (w : World) :
    handshake conn (ReadResult.ok idStr) w =
      (Phase.active (TrimSpace idStr),
        { clients := w.clients.insert conn (TrimSpace idStr),
          broadcast := w.broadcast ++
            [{ senderConn := some conn, content := "> User " ++ TrimSpace idStr ++ " joined" }],
          trace := w.trace ++ [Action.connRead conn, Action.muLock,
            Action.mapStore conn (TrimSpace idStr), Action.muUnlock,
            Action.chanSend ⟨some conn, "> User " ++ TrimSpace idStr ++ " joined"⟩] }) := by
  simp [handshake, muLock, muUnlock, clientsStore, broadcastSend, World.emit]

theorem handshake_fail (conn : Conn) (data : String) (w : World) :
    handshake conn (ReadResult.fail data) w =
      (Phase.terminated,
        { w with trace := w.trace ++ [Action.connRead conn, Action.connClose conn] }) := by
  simp [handshake, World.emit]

theorem readLoop_ok (conn : Conn) (id line : String) (w : World) :
    readLoop conn id (ReadResult.ok line) w =
      (Phase.active id,
        { w with
          broadcast := w.broadcast ++
            if TrimSpace line = "" then []
            else [{ senderConn := some conn, content := "[" ++ id ++ "]: " ++ TrimSpace line }],
          trace := w.trace ++ Action.connRead conn ::
            if TrimSpace line = "" then []
            else [Action.chanSend ⟨some conn, "[" ++ id ++ "]: " ++ TrimSpace line⟩] }) := by
  by_cases h : TrimSpace line = "" <;> simp [readLoop, h, broadcastSend, World.emit]

theorem readLoop_fail (conn : Conn) (id data : String) (w : World) :
    readLoop conn id (ReadResult.fail data) w =
      (Phase.terminated,
        { clients := w.clients.erase conn,
          broadcast := w.broadcast ++
            [{ senderConn := none, content := "User " ++ id ++ " left the chat" }],
          trace := w.trace ++ [Action.connRead conn, Action.muLock, Action.mapDelete conn,
            Action.muUnlock,
            Action.chanSend { senderConn := none, content := "User " ++ id ++ " left the chat" },
            Action.logPrintf ("User " ++ id ++ " disconnected."), Action.connClose conn] }) := by
  simp [readLoop, disconnect, muLock, muUnlock, clientsDelete, broadcastSend, World.emit]

theorem runSession_terminated (conn : Conn) (rs : List ReadResult) (w : World) :
    runSession conn Phase.terminated rs w = (Phase.terminated, w) := by
  induction rs with
  | nil => rfl
  | cons r rs ih => simp [runSession, handleClientStep, ih]

theorem runSession_append (conn : Conn) (p : Phase) (rs ss : List ReadResult) (w : World) :
    runSession conn p (rs ++ ss) w
      = runSession conn (runSession conn p rs w).1 ss (runSession conn p rs w).2 := by
  induction rs generalizing p w with
  | nil => rfl
  | cons r rs ih => simp [runSession, ih]

theorem runSession_active_ok (conn : Conn) (id : String) (lines : List String) (w : World) :
    (runSession conn (Phase.active id) (lines.map ReadResult.ok) w).1 = Phase.active id ∧
    (runSession conn (Phase.active id) (lines.map ReadResult.ok) w).2.clients = w.clients ∧
    (runSession conn (Phase.active id) (lines.map ReadResult.ok) w).2.broadcast
      = w.broadcast ++ chatEvents conn id lines := by
  induction lines generalizing w with
  | nil => simp [runSession, chatEvents]
  | cons l ls ih =>
    simp only [List.map_cons, runSession, handleClientStep, readLoop_ok]
    obtain ⟨h1, h2, h3⟩ := ih { w with
          broadcast := w.broadcast ++
            if TrimSpace l = "" then []
            else [{ senderConn := some conn, content := "[" ++ id ++ "]: " ++ TrimSpace l }],
          trace := w.trace ++ Action.connRead conn ::
            if TrimSpace l = "" then []
            else [Action.chanSend ⟨some conn, "[" ++ id ++ "]: " ++ TrimSpace l⟩] }
    refine ⟨h1, h2, ?_⟩
    rw [h3]
    by_cases h : TrimSpace l = "" <;> simp [chatEvents, h]

theorem chatEvents_sender (conn : Conn) (id : String) (lines : List String) :
    ∀ m ∈ chatEvents conn id lines, m.senderConn = some conn := by
  induction lines with
  | nil => simp [chatEvents]
  | cons l ls ih =>
    intro m hm
    simp only [chatEvents, List.mem_append] at hm
    rcases hm with hm | hm
    · by_cases h : TrimSpace l = ""
      · simp [h] at hm
      · simp [h] at hm; rw [hm]
    · exact ih m hm

theorem ReadString_fail (input : List Char) (h : '\n' ∉ input) :
    ReadString '\n' input = (ReadResult.fail ⟨input⟩, []) := by
  have h1 : input.takeWhile (fun c => c != '\n') = input := by
    rw [List.takeWhile_eq_self_iff]
    intro x hx
    simpa using fun e : x = '\n' => h (e ▸ hx)
  have h2 : input.dropWhile (fun c => c != '\n') = [] := by
    rw [List.dropWhile_eq_nil_iff]
    intro x hx
    simpa using fun e : x = '\n' => h (e ▸ hx)
  simp [ReadString, List.span_eq_take_drop, h1, h2]

/-! ### Trimming -/

theorem rdropWhile_append_rtakeWhile (p : Char → Bool) (l : List Char) :
    l.rdropWhile p ++ l.rtakeWhile p = l := by
  have h := congrArg List.reverse (List.takeWhile_append_dropWhile p l.reverse)
  rw [List.reverse_append, List.reverse_reverse] at h
  exact h

theorem trim_decompose (p : Char → Bool) (l : List Char) :
    l = l.takeWhile p ++ List.rdropWhile p (l.dropWhile p)
      ++ List.rtakeWhile p (l.dropWhile p) := by
  rw [List.append_assoc, rdropWhile_append_rtakeWhile, List.takeWhile_append_dropWhile]

theorem trim_head_not (p : Char → Bool) (l : List Char) (ch : Char)
    (h : (List.rdropWhile p (l.dropWhile p)).head? = some ch) : p ch = false := by
  obtain ⟨t, ht⟩ := List.rdropWhile_prefix p (l := l.dropWhile p)
  have h1 := List.head?_dropWhile_not p l
  rw [← ht] at h1
  cases hm : List.rdropWhile p (l.dropWhile p) with
  | nil => rw [hm] at h; simp at h
  | cons a m =>
    rw [hm] at h h1
    simp at h h1
    rw [← h]; exact h1

theorem trim_getLast_not (p : Char → Bool) (l : List Char) (ch : Char)
    (h : (List.rdropWhile p (l.dropWhile p)).getLast? = some ch) : p ch = false := by
  have hne : List.rdropWhile p (l.dropWhile p) ≠ [] := by
    intro e; rw [e] at h; simp at h
  have h1 := List.rdropWhile_last_not p (l.dropWhile p) hne
  rw [List.getLast?_eq_getLast _ hne] at h
  simp only [Option.some.injEq] at h
  rw [← h]; simpa using h1

theorem dropWhile_concat_cases (p : Char → Bool) (body : List Char) (x : Char) :
    (body ++ [x]).dropWhile p = [] ∨
      ∃ b, (body ++ [x]).dropWhile p = b ++ [x] ∧ ∀ y ∈ b, y ∈ body := by
  induction body with
  | nil =>
    by_cases h : p x = true
    · left; simp [List.dropWhile_cons, h]
    · right; exact ⟨[], by simp [List.dropWhile_cons, h], by simp⟩
  | cons a body ih =>
    by_cases h : p a = true
    · rcases ih with ih | ⟨b, hb, hsub⟩
      · left; simp [List.dropWhile_cons, h, ih]
      · right
        refine ⟨b, by simp [List.dropWhile_cons, h, hb], ?_⟩
        intro y hy; exact List.mem_cons_of_mem _ (hsub y hy)
    · right
      exact ⟨a :: body, by simp [List.dropWhile_cons, h], fun y hy => hy⟩

theorem trim_line_no_delim (p : Char → Bool) (body : List Char) (x : Char) (hx : p x = true)
    (hbody : x ∉ body) : x ∉ List.rdropWhile p ((body ++ [x]).dropWhile p) := by
  rcases dropWhile_concat_cases p body x with h | ⟨b, hb, hsub⟩
  · rw [h]; simp
  · rw [hb, List.rdropWhile_concat_pos _ _ _ hx]
    intro hmem
    have hpre := List.rdropWhile_prefix p b
    exact hbody (hsub x (hpre.subset hmem))

theorem ReadString_ok (delim : Char) (input : List Char) (line : String) (rest : List Char)
    (h : ReadString delim input = (ReadResult.ok line, rest)) :
    ∃ body, line.data = body ++ [delim] ∧ delim ∉ body ∧ input = body ++ delim :: rest := by
  unfold ReadString at h
  rw [List.span_eq_take_drop] at h
  cases hd : input.dropWhile (fun c => c != delim) with
  | nil => rw [hd] at h; simp at h
  | cons d r =>
    rw [hd] at h
    simp only [Prod.mk.injEq, ReadResult.ok.injEq] at h
    obtain ⟨h1, h2⟩ := h
    have hdd : d = delim := by
      have := List.head?_dropWhile_not (fun c => c != delim) input
      rw [hd] at this
      simpa using this
    refine ⟨input.takeWhile (fun c => c != delim), ?_, ?_, ?_⟩
    · rw [← h1, hdd]
    · intro hmem
      have := List.mem_takeWhile_imp hmem
      simp at this
    · have := List.takeWhile_append_dropWhile (fun c => c != delim) input
      rw [hd, hdd, h2] at this
      exact this.symm

theorem IsSpace_newline : IsSpace '\n' = true := by decide

theorem TrimSpace_line_no_newline (line : String)
    (h : ∃ input, (ReadString '\n' input).1 = ReadResult.ok line) :
    '\n' ∉ (TrimSpace line).data := by
  obtain ⟨input, hin⟩ := h
  obtain ⟨body, hb, hnb, -⟩ := ReadString_ok '\n' input line (ReadString '\n' input).2
    (by rw [← hin])
  simp only [TrimSpace, hb]
  exact trim_line_no_delim IsSpace body '\n' IsSpace_newline hnb

theorem TrimSpace_eq_trimTrailing_iff (line : String) :
    TrimSpace line = trimTrailing line ↔
      (∀ ch, line.data.head? = some ch → IsSpace ch = false) ∨
        ∀ ch ∈ line.data, IsSpace ch = true := by
  constructor
  · intro heq
    by_cases hall : ∀ ch ∈ line.data, IsSpace ch = true
    · exact Or.inr hall
    · left
      intro ch hch
      have hne : List.rdropWhile IsSpace line.data ≠ [] := by
        rw [Ne, List.rdropWhile_eq_nil_iff]; exact hall
      obtain ⟨t, ht⟩ := List.rdropWhile_prefix IsSpace line.data
      have hhead : (List.rdropWhile IsSpace line.data).head? = some ch := by
        cases hm : List.rdropWhile IsSpace line.data with
        | nil => exact absurd hm hne
        | cons a m =>
          rw [hm] at ht
          rw [← ht] at hch
          simpa using hch
      have hd : (TrimSpace line).data = (trimTrailing line).data := by rw [heq]
      simp only [TrimSpace, trimTrailing] at hd
      rw [← hd] at hhead
      exact trim_head_not IsSpace line.data ch hhead
  · rintro (h | h)
    · have hd : line.data.dropWhile IsSpace = line.data := by
        cases hl : line.data with
        | nil => rfl
        | cons a m =>
          have := h a (by rw [hl]; rfl)
          simp [List.dropWhile_cons, this]
      simp [TrimSpace, trimTrailing, hd]
    · have h1 : TrimSpace line = "" := (TrimSpace_eq_empty_iff line).2 h
      have h2 : trimTrailing line = "" := by
        apply String.ext
        simp only [trimTrailing]
        exact List.rdropWhile_eq_nil_iff.2 h
      rw [h1, h2]

theorem runSession_oneLine (conn : Conn) (rs : List ReadResult) :
    ∀ (p : Phase) (w : World), p.oneLine →
      (∀ line, ReadResult.ok line ∈ rs → ∃ input, (ReadString '\n' input).1 = ReadResult.ok line) →
      ∃ evs : List Message, (runSession conn p rs w).2.broadcast = w.broadcast ++ evs ∧
        ∀ m ∈ evs, '\n' ∉ m.content.data := by
  induction rs with
  | nil => intro p w _ _; exact ⟨[], by simp [runSession], by simp⟩
  | cons r rs ih =>
    intro p w hp hrs
    have hrs2 : ∀ line, ReadResult.ok line ∈ rs →
        ∃ input, (ReadString '\n' input).1 = ReadResult.ok line :=
      fun line hl => hrs line (List.mem_cons_of_mem _ hl)
    have hc1 : '\n' ∉ "> User ".data := by decide
    have hc2 : '\n' ∉ " joined".data := by decide
    have hc3 : '\n' ∉ "[".data := by decide
    have hc4 : '\n' ∉ "]: ".data := by decide
    have hc5 : '\n' ∉ "User ".data := by decide
    have hc6 : '\n' ∉ " left the chat".data := by decide
    cases p with
    | terminated =>
      exact ⟨[], by simp [runSession, handleClientStep, runSession_terminated], by simp⟩
    | handshake =>
      cases r with
      | fail data =>
        refine ⟨[], ?_, by simp⟩
        simp [runSession, handleClientStep, handshake_fail, runSession_terminated]
      | ok line =>
        have hline := TrimSpace_line_no_newline line (hrs line (List.mem_cons_self _ _))
        simp only [runSession, handleClientStep, handshake_ok]
        obtain ⟨evs, he, hm⟩ := ih (Phase.active (TrimSpace line))
          { clients := w.clients.insert conn (TrimSpace line),
            broadcast := w.broadcast ++
              [{ senderConn := some conn, content := "> User " ++ TrimSpace line ++ " joined" }],
            trace := w.trace ++ [Action.connRead conn, Action.muLock,
              Action.mapStore conn (TrimSpace line), Action.muUnlock,
              Action.chanSend ⟨some conn, "> User " ++ TrimSpace line ++ " joined"⟩] }
          hline hrs2
        refine ⟨⟨some conn, "> User " ++ TrimSpace line ++ " joined"⟩ :: evs, ?_, ?_⟩
        · rw [he]; simp
        · intro m hmem
          rcases List.mem_cons.1 hmem with rfl | hmem
          · simp only [String.data_append, List.mem_append, not_or]
            exact ⟨⟨hc1, hline⟩, hc2⟩
          · exact hm m hmem
    | active id =>
      have hid : '\n' ∉ id.data := hp
      cases r with
      | fail data =>
        refine ⟨[⟨none, "User " ++ id ++ " left the chat"⟩], ?_, ?_⟩
        · simp [runSession, handleClientStep, readLoop_fail, runSession_terminated]
        · intro m hmem
          rw [List.mem_singleton.1 hmem]
          simp only [String.data_append, List.mem_append, not_or]
          exact ⟨⟨hc5, hid⟩, hc6⟩
      | ok line =>
        have hline := TrimSpace_line_no_newline line (hrs line (List.mem_cons_self _ _))
        simp only [runSession, handleClientStep, readLoop_ok]
        obtain ⟨evs, he, hm⟩ := ih (Phase.active id)
          { w with
            broadcast := w.broadcast ++
              if TrimSpace line = "" then []
              else [{ senderConn := some conn, content := "[" ++ id ++ "]: " ++ TrimSpace line }],
            trace := w.trace ++ Action.connRead conn ::
              if TrimSpace line = "" then []
              else [Action.chanSend ⟨some conn, "[" ++ id ++ "]: " ++ TrimSpace line⟩] }
          hp hrs2
        refine ⟨(if TrimSpace line = "" then []
              else [⟨some conn, "[" ++ id ++ "]: " ++ TrimSpace line⟩]) ++ evs, ?_, ?_⟩
        · rw [he]; simp
        · intro m hmem
          rcases List.mem_append.1 hmem with hmem | hmem
          · by_cases h : TrimSpace line = ""
            · simp [h] at hmem
            · simp only [h, if_false, List.mem_singleton] at hmem
              rw [hmem]
              simp only [String.data_append, List.mem_append, not_or]
              exact ⟨⟨⟨hc3, hid⟩, hc4⟩, hline⟩
          · exact hm m hmem

/-! ### The router over a queue -/

theorem handleMessagesIter_cons (R : ClientMap) (msg : Message) (q : List Message)
    (t : List Action) :
    handleMessagesIter ⟨R, msg :: q, t⟩ = ⟨R, q, t ++ (Action.chanRecv msg ::
      ([Action.muLock, Action.mapRange] ++ rangeWrites msg R.entries ++ [Action.muUnlock]))⟩ := by
  simp [handleMessagesIter, fanOut_eq, World.emit]

theorem linesFor_append (c : Conn) (q r : List Message) :
    linesFor c (q ++ r) = linesFor c q ++ linesFor c r := by
  simp [linesFor]

theorem handleMessages_eq (R : ClientMap) (q : List Message) (t : List Action) :
    (handleMessages ⟨R, q, t⟩).clients = R ∧ (handleMessages ⟨R, q, t⟩).broadcast = [] ∧
    ∀ c : Conn, received c (handleMessages ⟨R, q, t⟩).trace
      = received c t ++ if c ∈ R.keys then linesFor c q else [] := by
  induction q generalizing t with
  | nil => simp [handleMessages, handleMessagesN, linesFor]
  | cons m q ih =>
    have hstep : handleMessages ⟨R, m :: q, t⟩ = handleMessages ⟨R, q, t ++ (Action.chanRecv m ::
        ([Action.muLock, Action.mapRange] ++ rangeWrites m R.entries ++ [Action.muUnlock]))⟩ := by
      simp only [handleMessages, List.length_cons, handleMessagesN, handleMessagesIter_cons]
    rw [hstep]
    obtain ⟨h1, h2, h3⟩ := ih (t ++ (Action.chanRecv m ::
        ([Action.muLock, Action.mapRange] ++ rangeWrites m R.entries ++ [Action.muUnlock])))
    refine ⟨h1, h2, ?_⟩
    intro c
    rw [h3 c]
    have hr : received c (t ++ (Action.chanRecv m ::
        ([Action.muLock, Action.mapRange] ++ rangeWrites m R.entries ++ [Action.muUnlock])))
        = received c t ++ received c (rangeWrites m R.entries) := by
      simp [received, List.filterMap_append]
    rw [hr, received_rangeWrites, count_keys]
    by_cases hc : c ∈ R.keys
    · by_cases hs : some c = m.senderConn
      · have hs2 : m.senderConn = some c := hs.symm
        simp [hc, hs2, linesFor]
      · have hs2 : ¬ m.senderConn = some c := fun e => hs e.symm
        simp [hc, hs, hs2, linesFor]
    · simp [hc]

/-! ### The server as a transition system -/

theorem handleMessagesIter_clients (w : World) : (handleMessagesIter w).clients = w.clients := by
  unfold handleMessagesIter
  cases h : w.broadcast with
  | nil => rfl
  | cons m q => simp [fanOut_eq, World.emit]

theorem handleClientStep_lookup (conn : Conn) (p : Phase) (r : ReadResult) (w : World)
    (hp : w.clients.lookup conn = p.registered) :
    (handleClientStep conn p r w).2.clients.lookup conn
        = (handleClientStep conn p r w).1.registered ∧
      ∀ c, c ≠ conn → (handleClientStep conn p r w).2.clients.lookup c = w.clients.lookup c := by
  cases p with
  | terminated => exact ⟨hp, fun _ _ => rfl⟩
  | handshake =>
    cases r with
    | fail data => rw [handleClientStep, handshake_fail]; exact ⟨hp, fun _ _ => rfl⟩
    | ok line =>
      simp only [handleClientStep, handshake_ok, Phase.registered]
      exact ⟨by simp, fun c hc => by simp [AList.lookup_insert_ne hc]⟩
  | active id =>
    cases r with
    | fail data =>
      simp only [handleClientStep, readLoop_fail, Phase.registered]
      exact ⟨by simp, fun c hc => by simp [AList.lookup_erase_ne hc]⟩
    | ok line => rw [handleClientStep, readLoop_ok]; exact ⟨hp, fun _ _ => rfl⟩

theorem step_registered (s u : Server) (h : Server.Step s u)
    (hs : ∀ c, s.world.clients.lookup c = (s.phase c).registered) :
    ∀ c, u.world.clients.lookup c = (u.phase c).registered := by
  cases h with
  | router =>
    intro c
    simp only [Server.routerStep, handleMessagesIter_clients]
    exact hs c
  | session conn r =>
    intro c
    obtain ⟨h1, h2⟩ := handleClientStep_lookup conn (s.phase conn) r s.world (hs conn)
    by_cases hc : c = conn
    · subst hc
      simp only [Server.sessionStep, Function.update_same]
      exact h1
    · simp only [Server.sessionStep, Function.update_noteq hc]
      rw [h2 c hc]; exact hs c

theorem reachableFrom_registered (s u : Server) (h : Server.ReachableFrom s u)
    (hs : ∀ c, s.world.clients.lookup c = (s.phase c).registered) :
    ∀ c, u.world.clients.lookup c = (u.phase c).registered := by
  induction h with
  | refl => exact hs
  | step _ hstep ih => exact step_registered _ _ hstep ih

theorem start_registered : ∀ c, Server.start.world.clients.lookup c
    = (Server.start.phase c).registered := by
  intro c; simp [Server.start, Phase.registered]

theorem handleClientStep_phase (conn : Conn) (id : String) (r : ReadResult) (w : World) :
    (handleClientStep conn (Phase.active id) r w).1 = Phase.active id ∨
      (handleClientStep conn (Phase.active id) r w).1 = Phase.terminated := by
  cases r with
  | fail data => right; simp [handleClientStep, readLoop_fail]
  | ok line => left; simp [handleClientStep, readLoop_ok]

theorem reachableFrom_phase (s u : Server) (h : Server.ReachableFrom s u) (c : Conn)
    (id : String) (hc : s.phase c = Phase.active id) :
    u.phase c = Phase.active id ∨ u.phase c = Phase.terminated := by
  induction h with
  | refl => exact Or.inl hc
  | @step a b _ hstep ih =>
    cases hstep with
    | router => exact ih
    | session conn r =>
      by_cases hcc : c = conn
      · subst hcc
        simp only [Server.sessionStep, Function.update_same]
        rcases ih with ih | ih
        · rw [ih]; exact handleClientStep_phase c id r a.world
        · rw [ih]; right; rfl
      · simp only [Server.sessionStep, Function.update_noteq hcc]
        exact ih

theorem lookup_isSome_iff (R : ClientMap) (c : Conn) :
    c ∈ R.keys ↔ ∃ id, R.lookup c = some id := by
  rw [← AList.mem_keys, ← AList.lookup_isSome, Option.isSome_iff_exists]

theorem registered_eq_some (p : Phase) (id : String) :
    p.registered = some id ↔ p = Phase.active id := by
  cases p <;> simp [Phase.registered]

/-! ### The lock -/

theorem heldAtEnd_append (h : Bool) (t u : List Action) :
    heldAtEnd h (t ++ u) = heldAtEnd (heldAtEnd h t) u := by
  induction t generalizing h with
  | nil => rfl
  | cons a t ih => simp [heldAtEnd, ih]

theorem allAllowed_append (h : Bool) (t u : List Action) :
    allAllowed h (t ++ u) = (allAllowed h t && allAllowed (heldAtEnd h t) u) := by
  induction t generalizing h with
  | nil => simp [allAllowed, heldAtEnd]
  | cons a t ih => simp [allAllowed, heldAtEnd, ih, Bool.and_assoc]

theorem annotate_append (h : Bool) (t u : List Action) :
    annotate h (t ++ u) = annotate h t ++ annotate (heldAtEnd h t) u := by
  induction t generalizing h with
  | nil => rfl
  | cons a t ih => simp [annotate, heldAtEnd, ih]

theorem allowed_of_allAllowed (h : Bool) (t : List Action) (ht : allAllowed h t = true) :
    ∀ held a, (held, a) ∈ annotate h t → a.allowed held = true := by
  induction t generalizing h with
  | nil => intro held a hm; simp [annotate] at hm
  | cons b t ih =>
    intro held a hm
    simp only [allAllowed, Bool.and_eq_true] at ht
    simp only [annotate, List.mem_cons, Prod.mk.injEq] at hm
    rcases hm with ⟨rfl, rfl⟩ | hm
    · exact ht.1
    · exact ih _ ht.2 held a hm

theorem lockDiscipline_of_allAllowed (t : List Action) (h1 : allAllowed false t = true)
    (h2 : heldAtEnd false t = false) : LockDiscipline t := by
  refine ⟨h2, ?_⟩
  intro held a hm
  have := allowed_of_allAllowed false t h1 held a hm
  cases a <;> cases held <;> simp_all [Action.allowed, Action.isRegistryAccess,
    Action.isConnWrite, Action.isOther]

theorem rangeWrites_lock (msg : Message) (es : List (Sigma fun _ : Conn => String)) :
    allAllowed true (rangeWrites msg es) = true ∧ heldAtEnd true (rangeWrites msg es) = true ∧
    ∀ held a, (held, a) ∈ annotate true (rangeWrites msg es) → held = true := by
  induction es with
  | nil => simp [rangeWrites, allAllowed, heldAtEnd, annotate]
  | cons e es ih =>
    by_cases h : some e.1 = msg.senderConn
    · have : rangeWrites msg (e :: es) = rangeWrites msg es := by simp [rangeWrites, h]
      rw [this]; exact ih
    · have : rangeWrites msg (e :: es)
          = Action.connWrite e.1 (msg.content ++ "\n") :: rangeWrites msg es := by
        simp [rangeWrites, h]
      rw [this]
      simp only [allAllowed, heldAtEnd, annotate, heldAfter, Action.allowed, Bool.true_and,
        List.mem_cons, Prod.mk.injEq]
      refine ⟨ih.1, ih.2.1, ?_⟩
      intro held a hm
      rcases hm with ⟨rfl, -⟩ | hm
      · rfl
      · exact ih.2.2 held a hm

theorem mem_annotate_true (t : List Action) (a : Action) (ha : a ∈ t)
    (h : ∀ held b, (held, b) ∈ annotate true t → held = true) : (true, a) ∈ annotate true t := by
  have key : ∀ (h0 : Bool) (l : List Action), a ∈ l → ∃ held, (held, a) ∈ annotate h0 l := by
    intro h0 l
    induction l generalizing h0 with
    | nil => intro hm; cases hm
    | cons b l ih =>
      intro hm
      rcases List.mem_cons.1 hm with rfl | hm
      · exact ⟨h0, by simp [annotate]⟩
      · obtain ⟨held, hh⟩ := ih (heldAfter h0 b) hm
        exact ⟨held, by simp [annotate, hh]⟩
  obtain ⟨held, hh⟩ := key true t ha
  have := h held a hh
  rw [this] at hh; exact hh

/-- The operations one step of a session appends to the trace. -/
theorem handleClientStep_segment (conn : Conn) (p : Phase) (r : ReadResult) (w : World) :
    ∃ seg, (handleClientStep conn p r w).2.trace = w.trace ++ seg ∧
      allAllowed false seg = true ∧ heldAtEnd false seg = false ∧
      ∀ a, (true, a) ∈ annotate false seg →
        a = Action.muUnlock ∨ (∃ id, a = Action.mapStore conn id) ∨ a = Action.mapDelete conn := by
  cases p with
  | terminated => exact ⟨[], by simp [handleClientStep], rfl, rfl, by simp [annotate]⟩
  | handshake =>
    cases r with
    | fail data =>
      exact ⟨[Action.connRead conn, Action.connClose conn],
        by rw [handleClientStep, handshake_fail], rfl, rfl, by simp [annotate, heldAfter]⟩
    | ok line =>
      refine ⟨[Action.connRead conn, Action.muLock, Action.mapStore conn (TrimSpace line),
        Action.muUnlock, Action.chanSend ⟨some conn, "> User " ++ TrimSpace line ++ " joined"⟩],
        by rw [handleClientStep, handshake_ok], rfl, rfl, ?_⟩
      intro a ha
      simp [annotate, heldAfter] at ha
      rcases ha with rfl | rfl
      · exact Or.inr (Or.inl ⟨_, rfl⟩)
      · exact Or.inl rfl
  | active id =>
    cases r with
    | fail data =>
      refine ⟨[Action.connRead conn, Action.muLock, Action.mapDelete conn, Action.muUnlock,
        Action.chanSend ⟨none, "User " ++ id ++ " left the chat"⟩,
        Action.logPrintf ("User " ++ id ++ " disconnected."), Action.connClose conn],
        by rw [handleClientStep, readLoop_fail], rfl, rfl, ?_⟩
      intro a ha
      simp [annotate, heldAfter] at ha
      rcases ha with rfl | rfl
      · exact Or.inr (Or.inr rfl)
      · exact Or.inl rfl
    | ok line =>
      refine ⟨Action.connRead conn :: if TrimSpace line = "" then []
          else [Action.chanSend ⟨some conn, "[" ++ id ++ "]: " ++ TrimSpace line⟩],
        by rw [handleClientStep, readLoop_ok], ?_, ?_, ?_⟩
      · by_cases h : TrimSpace line = "" <;> simp [h, allAllowed, Action.allowed, heldAfter]
      · by_cases h : TrimSpace line = "" <;> simp [h, heldAtEnd, heldAfter]
      · by_cases h : TrimSpace line = "" <;> simp [h, annotate, heldAfter]

/-- The operations one step of the router appends to the trace. -/
theorem handleMessagesIter_segment (w : World) :
    ∃ seg, (handleMessagesIter w).trace = w.trace ++ seg ∧
      allAllowed false seg = true ∧ heldAtEnd false seg = false ∧
      ∀ a ∈ seg, a.isConnWrite = true → (true, a) ∈ annotate false seg := by
  obtain ⟨R, q, t⟩ := w
  cases q with
  | nil => exact ⟨[], by simp [handleMessagesIter], rfl, rfl, by simp⟩
  | cons m q =>
    obtain ⟨h1, h2, h3⟩ := rangeWrites_lock m R.entries
    refine ⟨Action.chanRecv m :: Action.muLock :: Action.mapRange ::
      (rangeWrites m R.entries ++ [Action.muUnlock]),
      by simp [handleMessagesIter_cons], ?_, ?_, ?_⟩
    · simp [allAllowed, allAllowed_append, heldAtEnd, heldAfter, Action.allowed, h1, h2]
    · simp [heldAtEnd_append, heldAtEnd, heldAfter, h2]
    · intro a ha hw
      simp only [List.mem_cons, List.mem_append, List.not_mem_nil, or_false] at ha
      have hmem : a ∈ rangeWrites m R.entries := by
        rcases ha with rfl | rfl | rfl | ha | rfl
        · simp [Action.isConnWrite] at hw
        · simp [Action.isConnWrite] at hw
        · simp [Action.isConnWrite] at hw
        · exact ha
        · simp [Action.isConnWrite] at hw
      simp only [annotate, heldAfter, annotate_append, List.mem_cons, List.mem_append,
        Prod.mk.injEq]
      right; right; right; left
      exact mem_annotate_true _ a hmem h3

theorem step_lock (s u : Server) (h : Server.Step s u)
    (hs : allAllowed false s.world.trace = true ∧ heldAtEnd false s.world.trace = false) :
    allAllowed false u.world.trace = true ∧ heldAtEnd false u.world.trace = false := by
  cases h with
  | router =>
    obtain ⟨seg, h1, h2, h3, -⟩ := handleMessagesIter_segment s.world
    simp only [Server.routerStep, h1, allAllowed_append, heldAtEnd_append, hs.1, hs.2, h2, h3,
      Bool.and_self, and_self]
  | session conn r =>
    obtain ⟨seg, h1, h2, h3, -⟩ := handleClientStep_segment conn (s.phase conn) r s.world
    simp only [Server.sessionStep, h1, allAllowed_append, heldAtEnd_append, hs.1, hs.2, h2, h3,
      Bool.and_self, and_self]

theorem reachable_lock (s : Server) (h : s.Reachable) :
    allAllowed false s.world.trace = true ∧ heldAtEnd false s.world.trace = false := by
  induction h with
  | refl => exact ⟨rfl, rfl⟩
  | step _ hstep ih => exact step_lock _ _ hstep ih

/-! ## The claims -/

/-- C1. One iteration of `handleMessages` on the event `msg`: the registry is unchanged, the
event is consumed, and the data written to a connection `c` is the one line `msg.content`
followed by one newline when `c` is registered and is not the excluded connection, and nothing
otherwise; with no excluded connection every registered connection gets the line, and the
excluded connection (the sender of a chat or join message) gets nothing. -/
theorem C1_fanOut_one_event (R : ClientMap) (msg : Message) (q : List Message)
    (t : List Action) :
    (handleMessagesIter { clients := R, broadcast := msg :: q, trace := t }).clients = R ∧
    (handleMessagesIter { clients := R, broadcast := msg :: q, trace := t }).broadcast = q ∧
    (∀ c : Conn,
      received c (handleMessagesIter { clients := R, broadcast := msg :: q, trace := t }).trace
        = received c t ++
          if c ∈ R.keys ∧ some c ≠ msg.senderConn then [msg.content ++ "\n"] else []) ∧
    (msg.senderConn = none → ∀ c ∈ R.keys,
      received c (handleMessagesIter { clients := R, broadcast := msg :: q, trace := t }).trace
        = received c t ++ [msg.content ++ "\n"]) ∧
    (∀ c : Conn, msg.senderConn = some c →
      received c (handleMessagesIter { clients := R, broadcast := msg :: q, trace := t }).trace
        = received c t) := by
  have key : ∀ c : Conn,
      received c (handleMessagesIter { clients := R, broadcast := msg :: q, trace := t }).trace
        = received c t ++
          if c ∈ R.keys ∧ some c ≠ msg.senderConn then [msg.content ++ "\n"] else [] := by
    intro c
    simp only [handleMessagesIter, received_fanOut, World.emit, received_append]
    simp [received]
  refine ⟨?_, ?_, key, ?_, ?_⟩
  · simp [handleMessagesIter, fanOut_eq, World.emit]
  · simp [handleMessagesIter, fanOut_eq, World.emit]
  · intro h c hc
    rw [key c]; simp [h, hc]
  · intro c h
    rw [key c]; simp [h]

/-- C1 at a concrete input: with `1 ↦ "bob"` and `2 ↦ "dave"` registered and the event
`(1, "hi")`, connection 2 gets `"hi\n"` once, connections 1 and 3 get nothing. -/
theorem C1_fanOut_one_event_witness :
    received 2 (handleMessagesIter
      ⟨demoClients, [{ senderConn := some 1, content := "hi" }], []⟩).trace = ["hi\n"] ∧
    received 1 (handleMessagesIter
      ⟨demoClients, [{ senderConn := some 1, content := "hi" }], []⟩).trace = [] ∧
    received 3 (handleMessagesIter
      ⟨demoClients, [{ senderConn := some 1, content := "hi" }], []⟩).trace = [] := by
  have h := C1_fanOut_one_event demoClients { senderConn := some 1, content := "hi" } [] []
  refine ⟨?_, h.2.2.2.2 1 rfl, ?_⟩
  · rw [h.2.2.1 2]; decide
  · rw [h.2.2.1 3]; decide

/-- C2. A line read without error in the message loop of the session `id` on `conn`, with `t`
the trimmed line: the registry is unchanged and the session stays active; when `t` is empty,
which is exactly when the line holds only white space, no event is enqueued; otherwise exactly
one event is enqueued, excluding `conn`, with the text `"[" ++ id ++ "]: " ++ t`. -/
theorem C2_chat_line (conn : Conn) (id line : String) (w : World) :
    (readLoop conn id (ReadResult.ok line) w).1 = Phase.active id ∧
    (readLoop conn id (ReadResult.ok line) w).2.clients = w.clients ∧
    (TrimSpace line = "" ↔ ∀ ch ∈ line.data, IsSpace ch = true) ∧
    (readLoop conn id (ReadResult.ok line) w).2.broadcast = w.broadcast ++
      if TrimSpace line = "" then []
      else [{ senderConn := some conn, content := "[" ++ id ++ "]: " ++ TrimSpace line }] := by
  rw [readLoop_ok]
  exact ⟨rfl, rfl, TrimSpace_eq_empty_iff line, rfl⟩

/-- C2 at the example of the specification: carol, on connection 3, sends `hello`; the single
event enqueued is `[carol]: hello` with connection 3 excluded. A line of blanks enqueues
nothing. -/
theorem C2_chat_line_witness :
    (readLoop 3 "carol" (ReadResult.ok "hello\n") ⟨demoClients, [], []⟩).2.broadcast
      = [{ senderConn := some 3, content := "[carol]: hello" }] ∧
    (readLoop 3 "carol" (ReadResult.ok " \t\r\n") ⟨demoClients, [], []⟩).2.broadcast = [] := by
  constructor
  · rw [(C2_chat_line 3 "carol" "hello\n" ⟨demoClients, [], []⟩).2.2.2]; decide
  · rw [(C2_chat_line 3 "carol" " \t\r\n" ⟨demoClients, [], []⟩).2.2.2]; decide

/-- C3. A first line read without error, with `id` the trimmed line: the session becomes
active, stores `clients[conn] = id` (the entry of `conn` is `id`, every other entry is as
before), then enqueues exactly one event, excluding `conn`, with the text
`"> User " ++ id ++ " joined"`; when the router fans that event out, in whatever world `u`, each
registered connection other than `conn` gets that line once and `conn` gets nothing. -/
theorem C3_handshake_success (conn : Conn) (line : String) (w : World) :
    (handshake conn (ReadResult.ok line) w).1 = Phase.active (TrimSpace line) ∧
    (handshake conn (ReadResult.ok line) w).2.clients
      = w.clients.insert conn (TrimSpace line) ∧
    (handshake conn (ReadResult.ok line) w).2.clients.lookup conn = some (TrimSpace line) ∧
    (∀ c : Conn, c ≠ conn →
      (handshake conn (ReadResult.ok line) w).2.clients.lookup c = w.clients.lookup c) ∧
    (handshake conn (ReadResult.ok line) w).2.broadcast
      = w.broadcast ++ [⟨some conn, "> User " ++ TrimSpace line ++ " joined"⟩] ∧
    (handshake conn (ReadResult.ok line) w).2.trace
      = w.trace ++ [Action.connRead conn, Action.muLock,
          Action.mapStore conn (TrimSpace line), Action.muUnlock,
          Action.chanSend ⟨some conn, "> User " ++ TrimSpace line ++ " joined"⟩] ∧
    (∀ (u : World) (c : Conn),
      received c (fanOut ⟨some conn, "> User " ++ TrimSpace line ++ " joined"⟩ u).trace
        = received c u.trace ++
          if c ∈ u.clients.keys ∧ c ≠ conn
          then ["> User " ++ TrimSpace line ++ " joined" ++ "\n"] else []) := by
  rw [handshake_ok]
  refine ⟨rfl, rfl, ?_, ?_, rfl, rfl, ?_⟩
  · simp
  · intro c hc
    simp [AList.lookup_insert_ne hc]
  · intro u c
    rw [received_fanOut]
    by_cases h1 : c ∈ u.clients.keys <;> by_cases h2 : c = conn <;> simp [h1, h2]

/-- C3 at the example of the specification: with bob and dave registered (connections 1 and
2), a new connection 3 sends `alice`; the registry gains `3 ↦ "alice"`, one join event is
enqueued, and the router writes `> User alice joined` to 1 and 2 and nothing to 3. -/
theorem C3_handshake_success_witness :
    (handshake 3 (ReadResult.ok "alice\n") ⟨demoClients, [], []⟩).2.clients.lookup 3
      = some "alice" ∧
    (handshake 3 (ReadResult.ok "alice\n") ⟨demoClients, [], []⟩).2.broadcast
      = [⟨some 3, "> User alice joined"⟩] ∧
    received 1 (handleMessages
      (handshake 3 (ReadResult.ok "alice\n") ⟨demoClients, [], []⟩).2).trace
      = ["> User alice joined\n"] ∧
    received 2 (handleMessages
      (handshake 3 (ReadResult.ok "alice\n") ⟨demoClients, [], []⟩).2).trace
      = ["> User alice joined\n"] ∧
    received 3 (handleMessages
      (handshake 3 (ReadResult.ok "alice\n") ⟨demoClients, [], []⟩).2).trace = [] := by
  have h := C3_handshake_success 3 "alice\n" ⟨demoClients, [], []⟩
  refine ⟨?_, ?_, ?_, ?_, ?_⟩
  · rw [h.2.2.1]; decide
  · rw [h.2.2.2.2.1]; decide
  · decide
  · decide
  · decide

/-- C4. A failed read in the message loop of the session `id` on `conn`: the session
terminates; it first deletes `conn` from the registry (no entry for `conn`, every other entry as
before) and then enqueues exactly one event, excluding nobody, with the text
`"User " ++ id ++ " left the chat"`. Over the whole session, whatever lines were read, that
event is the last one enqueued and the only one that excludes nobody; and when the router fans
it out, in whatever world `u`, each registered connection gets that line once. -/
theorem C4_disconnect (conn : Conn) (id data : String) (w : World) :
    (readLoop conn id (ReadResult.fail data) w).1 = Phase.terminated ∧
    (readLoop conn id (ReadResult.fail data) w).2.clients = w.clients.erase conn ∧
    (readLoop conn id (ReadResult.fail data) w).2.clients.lookup conn = none ∧
    (∀ c : Conn, c ≠ conn →
      (readLoop conn id (ReadResult.fail data) w).2.clients.lookup c = w.clients.lookup c) ∧
    (readLoop conn id (ReadResult.fail data) w).2.broadcast
      = w.broadcast ++ [⟨none, "User " ++ id ++ " left the chat"⟩] ∧
    (readLoop conn id (ReadResult.fail data) w).2.trace
      = w.trace ++ [Action.connRead conn, Action.muLock, Action.mapDelete conn,
          Action.muUnlock, Action.chanSend ⟨none, "User " ++ id ++ " left the chat"⟩,
          Action.logPrintf ("User " ++ id ++ " disconnected."), Action.connClose conn] ∧
    (∀ (idLine : String) (lines : List String) (more : List ReadResult),
      (handleClient conn
          (ReadResult.ok idLine :: (lines.map ReadResult.ok ++ ReadResult.fail data :: more))
          w).1 = Phase.terminated ∧
      ∃ evs : List Message,
        (handleClient conn
          (ReadResult.ok idLine :: (lines.map ReadResult.ok ++ ReadResult.fail data :: more))
          w).2.broadcast
          = w.broadcast ++ evs ++ [⟨none, "User " ++ TrimSpace idLine ++ " left the chat"⟩] ∧
        ∀ m ∈ evs, m.senderConn = some conn) ∧
    (∀ (u : World) (c : Conn),
      received c (fanOut ⟨none, "User " ++ id ++ " left the chat"⟩ u).trace
        = received c u.trace ++
          if c ∈ u.clients.keys then ["User " ++ id ++ " left the chat" ++ "\n"] else []) := by
  rw [readLoop_fail]
  refine ⟨rfl, rfl, ?_, ?_, rfl, rfl, ?_, ?_⟩
  · simp
  · intro c hc
    simp [AList.lookup_erase_ne hc]
  · intro idLine lines more
    simp only [handleClient, runSession, handleClientStep, handshake_ok, runSession_append,
      readLoop_fail, runSession_terminated]
    obtain ⟨h1, -, h3⟩ := runSession_active_ok conn (TrimSpace idLine) lines
      { clients := w.clients.insert conn (TrimSpace idLine),
        broadcast := w.broadcast ++
          [{ senderConn := some conn, content := "> User " ++ TrimSpace idLine ++ " joined" }],
        trace := w.trace ++ [Action.connRead conn, Action.muLock,
          Action.mapStore conn (TrimSpace idLine), Action.muUnlock,
          Action.chanSend ⟨some conn, "> User " ++ TrimSpace idLine ++ " joined"⟩] }
    rw [h1]
    simp only [handleClientStep, readLoop_fail, runSession_terminated, true_and]
    refine ⟨⟨some conn, "> User " ++ TrimSpace idLine ++ " joined"⟩
      :: chatEvents conn (TrimSpace idLine) lines, ?_, ?_⟩
    · rw [h3]; simp
    · intro m hm
      rcases List.mem_cons.1 hm with rfl | hm
      · rfl
      · exact chatEvents_sender conn _ lines m hm
  · intro u c
    rw [received_fanOut]
    by_cases h1 : c ∈ u.clients.keys <;> simp [h1]

/-- C4 at the example of the specification: bob (connection 1) disconnects while dave
(connection 2) is registered; bob is removed, the one event `User bob left the chat` is
enqueued with nobody excluded, and the router writes that line once to dave. -/
theorem C4_disconnect_witness :
    (readLoop 1 "bob" (ReadResult.fail "") ⟨demoClients, [], []⟩).2.clients.entries
      = [⟨2, "dave"⟩] ∧
    (readLoop 1 "bob" (ReadResult.fail "") ⟨demoClients, [], []⟩).2.broadcast
      = [⟨none, "User bob left the chat"⟩] ∧
    received 2 (handleMessages
      (readLoop 1 "bob" (ReadResult.fail "") ⟨demoClients, [], []⟩).2).trace
      = ["User bob left the chat\n"] := by
  have h := C4_disconnect 1 "bob" "" ⟨demoClients, [], []⟩
  refine ⟨?_, ?_, ?_⟩
  · rw [h.2.1]; decide
  · rw [h.2.2.2.2.1]; decide
  · decide

/-- C5. A first read that fails, whatever data arrived before the failure: the session
terminates with the registry and the channel exactly as they were; it performed the read and the
close and nothing else, and stays so whatever would come next on the connection. A stream
without a newline makes the first read fail. -/
theorem C5_handshake_failure (conn : Conn) (data : String) (w : World) :
    (handshake conn (ReadResult.fail data) w).1 = Phase.terminated ∧
    (handshake conn (ReadResult.fail data) w).2.clients = w.clients ∧
    (handshake conn (ReadResult.fail data) w).2.broadcast = w.broadcast ∧
    (handshake conn (ReadResult.fail data) w).2.trace
      = w.trace ++ [Action.connRead conn, Action.connClose conn] ∧
    (∀ more : List ReadResult,
      handleClient conn (ReadResult.fail data :: more) w
        = handshake conn (ReadResult.fail data) w) ∧
    (∀ input : List Char, '\n' ∉ input →
      ReadString '\n' input = (ReadResult.fail ⟨input⟩, [])) := by
  rw [handshake_fail]
  refine ⟨rfl, rfl, rfl, rfl, ?_, ?_⟩
  · intro more
    simp [handleClient, runSession, handleClientStep, handshake_fail, runSession_terminated]
  · intro input h
    exact ReadString_fail input h

/-- C5 at a concrete input: the peer of connection 3 sends `al` and closes; the read fails,
and the registry still holds exactly bob and dave and the channel is empty. -/
theorem C5_handshake_failure_witness :
    ReadString '\n' ['a', 'l'] = (ReadResult.fail "al", []) ∧
    (handleClient 3 [ReadResult.fail "al"] ⟨demoClients, [], []⟩).2.clients.entries
      = [⟨2, "dave"⟩, ⟨1, "bob"⟩] ∧
    (handleClient 3 [ReadResult.fail "al"] ⟨demoClients, [], []⟩).2.broadcast = [] := by
  have h := C5_handshake_failure 3 "al" ⟨demoClients, [], []⟩
  refine ⟨h.2.2.2.2.2 ['a', 'l'] (by decide), ?_, ?_⟩
  · rw [h.2.2.2.2.1 [], h.2.1]; decide
  · rw [h.2.2.2.2.1 [], h.2.2.1]

/-- C6. In every reachable state of the server, where each session owns its connection: a
connection is a key of the registry if and only if its session is active, that is has completed
its handshake and has not run its disconnect handling; the identifier stored for it is the one
of its session, which is the trimmed line of its handshake; and in every state reachable from
there in which the connection is still registered, the identifier stored is the same. -/
theorem C6_registry_membership (s : Server) (hs : s.Reachable) :
    (∀ c : Conn, c ∈ s.world.clients.keys ↔ ∃ id, s.phase c = Phase.active id) ∧
    (∀ (c : Conn) (id : String), s.phase c = Phase.active id →
      s.world.clients.lookup c = some id) ∧
    (∀ (c : Conn) (line : String), s.phase c = Phase.handshake →
      (s.sessionStep c (ReadResult.ok line)).phase c = Phase.active (TrimSpace line) ∧
      (s.sessionStep c (ReadResult.ok line)).world.clients.lookup c
        = some (TrimSpace line)) ∧
    (∀ u : Server, Server.ReachableFrom s u → ∀ (c : Conn) (id : String),
      s.world.clients.lookup c = some id → c ∈ u.world.clients.keys →
        u.world.clients.lookup c = some id) := by
  have inv := reachableFrom_registered Server.start s hs start_registered
  refine ⟨?_, ?_, ?_, ?_⟩
  · intro c
    rw [lookup_isSome_iff, inv c]
    simp only [registered_eq_some]
  · intro c id h
    rw [inv c, h]; rfl
  · intro c line h
    simp only [Server.sessionStep, h, handleClientStep, handshake_ok, Function.update_same]
    exact ⟨trivial, by simp⟩
  · intro u hu c id hl hk
    have invu := reachableFrom_registered s u hu inv
    have hp : s.phase c = Phase.active id := by
      rw [← registered_eq_some, ← inv c]; exact hl
    rcases reachableFrom_phase s u hu c id hp with h | h
    · rw [invu c, h]; rfl
    · have : u.world.clients.lookup c = none := by rw [invu c, h]; rfl
      obtain ⟨id2, hid2⟩ := (lookup_isSome_iff _ _).1 hk
      rw [this] at hid2; cases hid2

/-- C6 at a concrete reachable state: carol completed her handshake on connection 3 and sent a
line, connection 4 failed its handshake; 3 is registered as `carol`, 4 is not registered. -/
theorem C6_registry_membership_witness :
    demoServer.Reachable ∧
    demoServer.phase 3 = Phase.active "carol" ∧
    3 ∈ demoServer.world.clients.keys ∧
    demoServer.world.clients.lookup 3 = some "carol" ∧
    demoServer.phase 4 = Phase.terminated ∧
    4 ∉ demoServer.world.clients.keys := by
  have hr : demoServer.Reachable :=
    Server.ReachableFrom.step (Server.ReachableFrom.step (Server.ReachableFrom.step
      Server.ReachableFrom.refl (Server.Step.session _ 3 (ReadResult.ok "carol\n")))
      (Server.Step.session _ 4 (ReadResult.fail ""))) (Server.Step.session _ 3 (ReadResult.ok "hello\n"))
  have h := C6_registry_membership demoServer hr
  have h3 : demoServer.phase 3 = Phase.active "carol" := by decide
  have h4 : demoServer.phase 4 = Phase.terminated := by decide
  refine ⟨hr, h3, (h.1 3).2 ⟨"carol", h3⟩, h.2.1 3 "carol" h3, h4, ?_⟩
  intro hmem
  obtain ⟨id, hid⟩ := (h.1 4).1 hmem
  rw [h4] at hid; cases hid

/-- C7, as the specification states it, fails: the first line `" bob\n"` registers the
identifier `"bob"`, whereas the line with only its trailing white space and newline removed is
`" bob"`. -/
theorem C7_trailing_only_counterexample :
    (handshake 3 (ReadResult.ok " bob\n") ⟨demoClients, [], []⟩).1 = Phase.active "bob" ∧
    (handshake 3 (ReadResult.ok " bob\n") ⟨demoClients, [], []⟩).2.clients.lookup 3
      = some "bob" ∧
    trimTrailing " bob\n" = " bob" ∧
    (handshake 3 (ReadResult.ok " bob\n") ⟨demoClients, [], []⟩).1
      ≠ Phase.active (trimTrailing " bob\n") := by
  decide

/-- C7, amended. The identifier of a first line read without error is the line with its
leading and its trailing white space removed and nothing else changed: the line is white space,
then the identifier, then white space, and the identifier neither starts nor ends with white
space. It is registered whatever it is, the empty string included. It is the line with only the
trailing white space removed exactly when the line does not start with white space or is white
space only. -/
theorem C7_identifier_is_trimmed_line (conn : Conn) (line : String) (w : World) :
    (handshake conn (ReadResult.ok line) w).1 = Phase.active (TrimSpace line) ∧
    (handshake conn (ReadResult.ok line) w).2.clients.lookup conn = some (TrimSpace line) ∧
    (∃ pre post : List Char, line.data = pre ++ (TrimSpace line).data ++ post ∧
      (∀ ch ∈ pre, IsSpace ch = true) ∧ (∀ ch ∈ post, IsSpace ch = true)) ∧
    (∀ ch, (TrimSpace line).data.head? = some ch → IsSpace ch = false) ∧
    (∀ ch, (TrimSpace line).data.getLast? = some ch → IsSpace ch = false) ∧
    ((∀ ch ∈ line.data, IsSpace ch = true) →
      (handshake conn (ReadResult.ok line) w).2.clients.lookup conn = some "") ∧
    (TrimSpace line = trimTrailing line ↔
      (∀ ch, line.data.head? = some ch → IsSpace ch = false) ∨
        ∀ ch ∈ line.data, IsSpace ch = true) := by
  rw [handshake_ok]
  refine ⟨rfl, by simp, ?_, ?_, ?_, ?_, TrimSpace_eq_trimTrailing_iff line⟩
  · refine ⟨line.data.takeWhile IsSpace,
      List.rtakeWhile IsSpace (line.data.dropWhile IsSpace), ?_, ?_, ?_⟩
    · exact trim_decompose IsSpace line.data
    · intro ch hch; exact List.mem_takeWhile_imp hch
    · intro ch hch; exact List.mem_rtakeWhile_imp hch
  · intro ch hch; exact trim_head_not IsSpace line.data ch hch
  · intro ch hch; exact trim_getLast_not IsSpace line.data ch hch
  · intro hall
    simp [(TrimSpace_eq_empty_iff line).2 hall]

/-- C7, amended, at concrete inputs: `"alice\n"` registers `"alice"`, `"  al ice \r\n"`
registers `"al ice"`, and the blank line `" \n"` registers the empty identifier. -/
theorem C7_identifier_is_trimmed_line_witness :
    (handshake 3 (ReadResult.ok "alice\n") ⟨demoClients, [], []⟩).2.clients.lookup 3
      = some "alice" ∧
    (handshake 3 (ReadResult.ok "  al ice \r\n") ⟨demoClients, [], []⟩).2.clients.lookup 3
      = some "al ice" ∧
    (handshake 3 (ReadResult.ok " \n") ⟨demoClients, [], []⟩).2.clients.lookup 3
      = some "" := by
  refine ⟨?_, ?_, ?_⟩
  · rw [(C7_identifier_is_trimmed_line 3 "alice\n" ⟨demoClients, [], []⟩).2.1]; decide
  · rw [(C7_identifier_is_trimmed_line 3 "  al ice \r\n" ⟨demoClients, [], []⟩).2.1]; decide
  · exact (C7_identifier_is_trimmed_line 3 " \n" ⟨demoClients, [], []⟩).2.2.2.2.2.1
      (by decide)

/-- C8. With a fixed registry `R`, the router that consumes the events `q` leaves the registry
as it is, empties the channel, and writes to each registered connection `c` exactly the texts
(each with its newline) of the events of `q` that do not exclude `c`, in the order of `q`, and
nothing to an unregistered connection. A session enqueues its chat events in the order it reads
the lines; and if it reads the non-empty line `l1` before the non-empty line `l2`, whatever
events `qb` and `qc` other tasks enqueue in between and after, every other registered connection
gets the wrapped `l1` before the wrapped `l2`. -/
theorem C8_delivery_order (R : ClientMap) (q : List Message) (t : List Action) (c : Conn)
    (conn : Conn) (id l1 l2 : String) (lines : List String) (w : World)
    (qb qc : List Message) :
    (handleMessages ⟨R, q, t⟩).clients = R ∧
    (handleMessages ⟨R, q, t⟩).broadcast = [] ∧
    (c ∈ R.keys → received c (handleMessages ⟨R, q, t⟩).trace = received c t ++ linesFor c q) ∧
    (c ∉ R.keys → received c (handleMessages ⟨R, q, t⟩).trace = received c t) ∧
    (runSession conn (Phase.active id) (lines.map ReadResult.ok) w).2.broadcast
      = w.broadcast ++ chatEvents conn id lines ∧
    (TrimSpace l1 ≠ "" → TrimSpace l2 ≠ "" → c ∈ R.keys → c ≠ conn →
      received c (handleMessages ⟨R,
        (readLoop conn id (ReadResult.ok l2)
          ⟨w.clients, (readLoop conn id (ReadResult.ok l1) w).2.broadcast ++ qb,
            w.trace⟩).2.broadcast ++ qc, t⟩).trace
        = received c t ++ linesFor c w.broadcast ++ ["[" ++ id ++ "]: " ++ TrimSpace l1 ++ "\n"]
          ++ linesFor c qb ++ ["[" ++ id ++ "]: " ++ TrimSpace l2 ++ "\n"]
          ++ linesFor c qc) := by
  obtain ⟨h1, h2, h3⟩ := handleMessages_eq R q t
  refine ⟨h1, h2, ?_, ?_, (runSession_active_ok conn id lines w).2.2, ?_⟩
  · intro hc; rw [h3 c, if_pos hc]
  · intro hc; rw [h3 c, if_neg hc, List.append_nil]
  · intro hl1 hl2 hc hne
    have hne2 : ¬ conn = c := fun e => hne e.symm
    rw [(handleMessages_eq R _ t).2.2 c, if_pos hc]
    simp only [readLoop_ok, hl1, hl2, if_false, linesFor_append]
    simp [linesFor, hne2]

/-- C8 at a concrete run: carol (connection 3) sends `one` then `two` while dave (connection
2) sends `hey` in between; bob (connection 1) gets the three lines in the order of the channel,
carol's `one` before her `two`. -/
theorem C8_delivery_order_witness :
    received 1 (handleMessages ⟨demoClients,
        [⟨some 3, "[carol]: one"⟩, ⟨some 2, "[dave]: hey"⟩, ⟨some 3, "[carol]: two"⟩], []⟩).trace
      = ["[carol]: one\n", "[dave]: hey\n", "[carol]: two\n"] ∧
    received 1 (handleMessages ⟨demoClients,
        (readLoop 3 "carol" (ReadResult.ok "two\n")
          ⟨demoClients, (readLoop 3 "carol" (ReadResult.ok "one\n")
            ⟨demoClients, [], []⟩).2.broadcast ++ [⟨some 2, "[dave]: hey"⟩],
            []⟩).2.broadcast ++ [], []⟩).trace
      = ["[carol]: one\n", "[dave]: hey\n", "[carol]: two\n"] := by
  have h := C8_delivery_order demoClients
    [⟨some 3, "[carol]: one"⟩, ⟨some 2, "[dave]: hey"⟩, ⟨some 3, "[carol]: two"⟩] [] 1
    3 "carol" "one\n" "two\n" [] ⟨demoClients, [], []⟩ [⟨some 2, "[dave]: hey"⟩] []
  refine ⟨?_, ?_⟩
  · rw [h.2.2.1 (by decide)]; decide
  · rw [h.2.2.2.2.2 (by decide) (by decide) (by decide) (by decide)]; decide

/-- C9, as the specification states it, fails: in the reachable state where bob and dave have
joined and the router has delivered the join event of bob, the write of `> User bob joined` to
connection 2 is performed while the lock is held. -/
theorem C9_write_under_lock_counterexample :
    demoRouted.Reachable ∧
    (true, Action.connWrite 2 "> User bob joined\n") ∈ annotate false demoRouted.world.trace ∧
    ¬ NoConnOpUnderLock demoRouted.world.trace := by
  have hr : demoRouted.Reachable :=
    Server.ReachableFrom.step (Server.ReachableFrom.step (Server.ReachableFrom.step
      Server.ReachableFrom.refl (Server.Step.session _ 1 (ReadResult.ok "bob\n")))
      (Server.Step.session _ 2 (ReadResult.ok "dave\n"))) (Server.Step.router _)
  have hm : (true, Action.connWrite 2 "> User bob joined\n")
      ∈ annotate false demoRouted.world.trace := by decide
  exact ⟨hr, hm, fun h => by simpa [Action.touchesConn] using h _ hm⟩

/-- C9, amended. In every reachable state the trace respects the lock discipline of
`server.go`: the one lock is acquired only when free and released only when held; every access
to the registry (the store, the delete, the iteration of the router) is performed with the lock
held, and so is every write to a connection; every read, channel send or receive and close is
performed with the lock free. In each step of a session the lock is held for its one map
operation only; in each step of the router it is held over the whole fan-out, writes
included. -/
theorem C9_lock_discipline (s : Server) (hs : s.Reachable) (conn : Conn) (p : Phase)
    (r : ReadResult) (w : World) :
    LockDiscipline s.world.trace ∧
    (∃ seg, (handleClientStep conn p r w).2.trace = w.trace ++ seg ∧ LockDiscipline seg ∧
      ∀ a, (true, a) ∈ annotate false seg →
        a = Action.muUnlock ∨ (∃ id, a = Action.mapStore conn id) ∨ a = Action.mapDelete conn) ∧
    (∃ seg, (handleMessagesIter w).trace = w.trace ++ seg ∧ LockDiscipline seg ∧
      ∀ a ∈ seg, a.isConnWrite = true → (true, a) ∈ annotate false seg) := by
  refine ⟨?_, ?_, ?_⟩
  · obtain ⟨h1, h2⟩ := reachable_lock s hs
    exact lockDiscipline_of_allAllowed _ h1 h2
  · obtain ⟨seg, h1, h2, h3, h4⟩ := handleClientStep_segment conn p r w
    exact ⟨seg, h1, lockDiscipline_of_allAllowed _ h2 h3, h4⟩
  · obtain ⟨seg, h1, h2, h3, h4⟩ := handleMessagesIter_segment w
    exact ⟨seg, h1, lockDiscipline_of_allAllowed _ h2 h3, h4⟩

/-- C9, amended, at a concrete reachable state: after bob and dave joined and the router
delivered the join event of bob, the trace respects the lock discipline, and the store of bob is
performed with the lock held. -/
theorem C9_lock_discipline_witness :
    demoRouted.Reachable ∧ LockDiscipline demoRouted.world.trace ∧
    (true, Action.mapStore 1 "bob") ∈ annotate false demoRouted.world.trace := by
  have hr : demoRouted.Reachable :=
    Server.ReachableFrom.step (Server.ReachableFrom.step (Server.ReachableFrom.step
      Server.ReachableFrom.refl (Server.Step.session _ 1 (ReadResult.ok "bob\n")))
      (Server.Step.session _ 2 (ReadResult.ok "dave\n"))) (Server.Step.router _)
  exact ⟨hr, (C9_lock_discipline demoRouted hr 3 Phase.handshake (ReadResult.ok "carol\n")
    demoRouted.world).1, by decide⟩

/-- C10. In a session whose lines are each what `ReadString` returns for the delimiter `'\n'`,
the text of every event the session enqueues (join, chat, leave) holds no newline; so what the
router writes for such an event, the text followed by a newline, holds exactly one newline, its
last character, and a connection gets that one line for the event or nothing. -/
theorem C10_one_line_per_event (conn : Conn) (rs : List ReadResult) (w : World)
    (hrs : ∀ line, ReadResult.ok line ∈ rs →
      ∃ input, (ReadString '\n' input).1 = ReadResult.ok line) :
    ∃ evs : List Message, (handleClient conn rs w).2.broadcast = w.broadcast ++ evs ∧
      ∀ m ∈ evs, '\n' ∉ m.content.data ∧
        (m.content ++ "\n").data = m.content.data ++ ['\n'] ∧
        (m.content ++ "\n").data.count '\n' = 1 ∧
        ∀ (u : World) (c : Conn),
          received c (fanOut m u).trace = received c u.trace ++
            if c ∈ u.clients.keys ∧ some c ≠ m.senderConn then [m.content ++ "\n"] else [] := by
  obtain ⟨evs, he, hm⟩ := runSession_oneLine conn rs Phase.handshake w trivial hrs
  refine ⟨evs, he, ?_⟩
  intro m hmem
  have hn := hm m hmem
  refine ⟨hn, by simp, ?_, fun u c => received_fanOut m u c⟩
  simp only [String.data_append, List.count_append]
  rw [List.count_eq_zero_of_not_mem hn]
  decide

/-- C10 at a concrete run: the stream `"carol\nhello\n"` is read as the lines `"carol\n"` and
`"hello\n"`, the third read fails, and the three events of the session hold no newline. -/
theorem C10_one_line_per_event_witness :
    (ReadString '\n' "carol\nhello\n".data).1 = ReadResult.ok "carol\n" ∧
    (ReadString '\n' "hello\n".data).1 = ReadResult.ok "hello\n" ∧
    ∃ evs : List Message,
      (handleClient 3 [ReadResult.ok "carol\n", ReadResult.ok "hello\n", ReadResult.fail ""]
        ⟨demoClients, [], []⟩).2.broadcast = [] ++ evs ∧
      ∀ m ∈ evs, '\n' ∉ m.content.data ∧
        (m.content ++ "\n").data = m.content.data ++ ['\n'] ∧
        (m.content ++ "\n").data.count '\n' = 1 ∧
        ∀ (u : World) (c : Conn),
          received c (fanOut m u).trace = received c u.trace ++
            if c ∈ u.clients.keys ∧ some c ≠ m.senderConn then [m.content ++ "\n"] else [] := by
  refine ⟨by decide, by decide, ?_⟩
  refine C10_one_line_per_event 3
    [ReadResult.ok "carol\n", ReadResult.ok "hello\n", ReadResult.fail ""]
    ⟨demoClients, [], []⟩ ?_
  intro line hl
  simp only [List.mem_cons, ReadResult.ok.injEq, List.mem_singleton, List.not_mem_nil,
    or_false] at hl
  rcases hl with rfl | rfl | h
  · exact ⟨"carol\nhello\n".data, by decide⟩
  · exact ⟨"hello\n".data, by decide⟩
  · cases h

end Chatroom
